import Mathlib

/-!
Verification of `helpers/check-upstream.py`, the change-relevance
classification script of the virtual-environments fork.

The Python source is shallowly embedded below:

* strings are modelled as `List Char` (`Str`), and Python's
  `str.startswith` as `List.isPrefixOf` of the pattern;
* `get_latest_releases` (tag selection) is modelled by `scanTags`:
  the source builds ONE `reversed(...)` iterator over the
  date-sorted tag names and calls `next` on it twice, so the second
  scan resumes where the first one stopped; `findFirstRest` returns
  the found element together with the unconsumed remainder to model
  the shared iterator;
* the `str.replace` path rewrite of `get_scripts_in_template` is
  `pyReplace` (left-to-right, non-overlapping, like CPython);
* the regex scan of `extract_jq_queries` is modelled by a direct
  backtracking matcher for the one concrete pattern
  `\$\(get_toolset_value (?:'(.*)'|"(.*)"|(.*?))\)` with Python
  semantics (greedy `.*` not crossing newlines, lazy `.*?`,
  leftmost non-overlapping `finditer` scan);
* `compare_toolset_values` and the body of `main` are modelled over
  an abstract configuration-document type and query evaluator (the
  spec declares the JSON parser and jq evaluator to be external
  collaborators); JSON parse failure is `Option.none`;
* the console report of `main` is modelled as a list of `Event`s,
  and an uncaught exception as an `aborted` flag that cuts the
  event list short.

Recursions that are not structural in the source (`finditer`,
`str.replace`) use an explicit fuel equal to the input length; every
step consumes at least one character, so that fuel is sufficient,
and all lemmas are proved for arbitrary fuel where possible.
-/

/-- Strings of the Python source, modelled as character lists. -/
abbrev Str := List Char

/-- Python `s.startswith(pre)`: `pre` is a prefix of `s`. -/
def startswith (s pre : Str) : Bool := List.isPrefixOf pre s

/-- Boolean prefix test agrees with the propositional `<+:`. -/
theorem isPrefixOf_iff_isPrefix : ∀ (l₁ l₂ : Str), l₁.isPrefixOf l₂ = true ↔ l₁ <+: l₂ := by
  intro l₁
  induction l₁ with
  | nil => intro l₂; simp [List.isPrefixOf]
  | cons a l ih =>
    intro l₂
    cases l₂ with
    | nil => simp [List.isPrefixOf]
    | cons b l' =>
      show (a == b && List.isPrefixOf l l') = true ↔ _
      rw [Bool.and_eq_true, beq_iff_eq, ih, List.cons_prefix_cons]

/-! ### RevisionResolver: `get_latest_releases` -/

/-- Scans a list for the first element satisfying `p` and returns it
together with the NOT yet consumed remainder of the list, exactly as
Python's `next` on a shared iterator does. `none` models the
uncaught `StopIteration` (the spec's `NotFoundError`). -/
def findFirstRest (p : α → Bool) : List α → Option (α × List α)
  | [] => none
  | x :: xs => if p x then some (x, xs) else findFirstRest p xs

/-- Tag selection over the reversed (most-recent-first) tag-name
list: `next` for the first pattern, then `next` for the second pattern on
the SAME iterator, as in `get_latest_releases`. -/
def scanTags (pA pB : Str) (rev : List Str) : Option (Str × Str) :=
  match findFirstRest (fun n => startswith n pA) rev with
  | none => none
  | some (u, rest) =>
    match rest.find? (fun n => startswith n pB) with
    | none => none
    | some b => some (u, b)

/-- Tag-name pattern of the upstream release tags. -/
def uPat : Str := "ubuntu22/".data

/-- Tag-name pattern of the fork's base tags. -/
def bPat : Str := "bugswarm/".data

/-- Source `get_latest_releases`: the input is the output of
`git tag --sort authordate` (author date ascending); the source
reverses it and scans once. -/
def get_latest_releases (tagnames : List Str) : Option (Str × Str) :=
  scanTags uPat bPat tagnames.reverse

/-- Selection rule as the spec words it: the most recent (= first in
the reversed date-sorted list) tag name matching the pattern,
independently per pattern. -/
def claimLatestMatch (p : Str) (tagnames : List Str) : Option Str :=
  tagnames.reverse.find? (fun n => startswith n p)

example : get_latest_releases ["bugswarm/a".data, "ubuntu22/b".data]
    = some ("ubuntu22/b".data, "bugswarm/a".data) := by decide

example : get_latest_releases ["bugswarm/a".data, "ubuntu22/b".data, "bugswarm/c".data]
    = some ("ubuntu22/b".data, "bugswarm/a".data) := by decide

example : claimLatestMatch bPat ["bugswarm/a".data, "ubuntu22/b".data, "bugswarm/c".data]
    = some ("bugswarm/c".data) := by decide

/-! ### DependencySetExtractor: `get_scripts_in_template` -/

/-- Python `s.replace(tok, rep)` for nonempty `tok`: replace all
occurrences, scanning left to right, non-overlapping. The fuel is
the length of the remaining input; each step consumes at least one
character (`tok` is nonempty), so `s.length` fuel never runs out. -/
def pyReplaceAux (tok rep : Str) : Nat → Str → Str
  | 0, s => s
  | _ + 1, [] => []
  | fuel + 1, c :: cs =>
    if tok.isPrefixOf (c :: cs) then
      rep ++ pyReplaceAux tok rep fuel (List.drop tok.length (c :: cs))
    else
      c :: pyReplaceAux tok rep fuel cs

/-- Python `s.replace(tok, rep)`. -/
def pyReplace (tok rep s : Str) : Str := pyReplaceAux tok rep s.length s

/-- The template-relative placeholder token of the source:
the literal string between braces is `path.root`. -/
def phToken : Str := "$\x7bpath.root\x7d/..".data

/-- The repository-relative replacement the source substitutes. -/
def repoScriptsBase : Str := "images/ubuntu".data

/-- The per-path rewrite of `get_scripts_in_template`:
`path.replace('${path.root}/..', 'images/ubuntu')`. -/
def rewritePath (p : Str) : Str := pyReplace phToken repoScriptsBase p

/-- A parsed `shell` provisioner block: optional single `script`
field and optional `scripts` list field. -/
structure ShellSpec where
  script : Option Str
  scripts : Option (List Str)
deriving DecidableEq

/-- A parsed provisioning step of the template's build definition:
it either carries a `shell` block or it does not (non-shell
provisioners such as file copies). -/
structure Step where
  shell : Option ShellSpec
deriving DecidableEq

/-- The collection loop of `get_scripts_in_template`: skip steps
without `'shell'`, take `step['shell']['script']` if present, else
all of `step['shell']['scripts']` if present. -/
def collectScripts (steps : List Step) : List Str :=
  steps.foldl
    (fun acc st =>
      match st.shell with
      | none => acc
      | some sh =>
        match sh.script with
        | some s => acc ++ [s]
        | none =>
          match sh.scripts with
          | some ss => acc ++ ss
          | none => acc)
    []

/-- Source `get_scripts_in_template`, applied to the parsed list of
provisioning steps (`obj['build'][0]['provisioner']`; the HCL parser
is an external collaborator): collect the scripts, then rewrite the
placeholder token in every path. -/
def get_scripts_in_template (steps : List Step) : List Str :=
  (collectScripts steps).map rewritePath

/-- Per-step contribution as the claim words it: a step of kind
"shell" contributes its single `script` when present, else every
entry of `scripts` when present; a step lacking a shell
specification contributes nothing. -/
def claimStepDeps (st : Step) : List Str :=
  match st.shell with
  | none => []
  | some sh =>
    match sh.script with
    | some s => [s]
    | none =>
      match sh.scripts with
      | some ss => ss
      | none => []

example : rewritePath "x$\x7bpath.root\x7d/..".data = "ximages/ubuntu".data := by decide
example : ¬ repoScriptsBase <+: rewritePath "x$\x7bpath.root\x7d/..".data := by decide
example : rewritePath "$\x7bpath.root\x7d/../scripts/build/a.sh".data
    = "images/ubuntu/scripts/build/a.sh".data := by decide

/-! ### DependencySetExtractor: `get_helper_scripts` -/

/-- A git tree entry below the helper directory: a file (blob) with
its repository-relative path, or a subdirectory (tree) with its path
and children. -/
inductive TreeEntry where
  | blob (path : Str)
  | dir (path : Str) (children : List TreeEntry)

/-- The repository-relative path of an entry. -/
def entryPath : TreeEntry → Str
  | .blob p => p
  | .dir p _ => p

/-- GitPython `tree.traverse()` on the forest of children of the
helper directory: yields every entry below the root — subtrees
themselves included — recursively. (Traversal order is irrelevant
to the source, which wraps the result into a set.) -/
def forestPaths : List TreeEntry → List Str
  | [] => []
  | .blob p :: es => p :: forestPaths es
  | .dir p cs :: es => p :: (forestPaths cs ++ forestPaths es)

/-- Source `get_helper_scripts`:
`[item.path for item in tree.traverse()]` where `tree` is the
`images/ubuntu/scripts/helpers` tree, given here by its children. -/
def get_helper_scripts (helperChildren : List TreeEntry) : List Str :=
  forestPaths helperChildren

/-- Reachability of an entry somewhere below the root forest: it is
a direct child, or it sits inside a reachable subdirectory. -/
inductive Reach : List TreeEntry → TreeEntry → Prop where
  | mem {f : List TreeEntry} {e : TreeEntry} : e ∈ f → Reach f e
  | nest {f : List TreeEntry} {p : Str} {cs : List TreeEntry} {e : TreeEntry} :
      TreeEntry.dir p cs ∈ f → Reach cs e → Reach f e

/-! ### QueryExtractor: `extract_jq_queries`

The source scans each script with
`re.finditer(r'\$\(get_toolset_value (?:\x27(.*)\x27|"(.*)"|(.*?))\)', contents)`.
The matcher below implements exactly this pattern with Python `re`
semantics: the literal head, then the three alternatives tried in
order; `.` never matches a newline; `(.*)` is greedy (the closing
quote-parenthesis pair is the rightmost one on the line), `(.*?)` is
lazy (the closing parenthesis is the first one on the line). -/

/-- The literal head of the pattern: `$(get_toolset_value `. -/
def litHead : Str := "$(get_toolset_value ".data

/-- Matches greedy `(.*)` followed by the quote `q` and `)`: splits
the input as `g ++ [q, ')'] ++ rest` with no newline in `g` and `g`
as long as possible. `none` when no such split exists. -/
def lastClose (q : Char) : Str → Option (Str × Str)
  | [] => none
  | c :: cs =>
    if c = '\n' then none
    else
      match lastClose q cs with
      | some (g, r) => some (c :: g, r)
      | none =>
        match cs with
        | c2 :: r => if c = q ∧ c2 = ')' then some ([], r) else none
        | [] => none

/-- Matches lazy `(.*?)` followed by `)`: the group stops at the
first `)` on the line. `none` when the line has no `)`. -/
def lazyToParen (t : Str) : Option (Str × Str) :=
  let g := t.takeWhile (fun c => ¬(c = ')' ∨ c = '\n'))
  match t.drop g.length with
  | c :: r => if c = ')' then some (g, r) else none
  | [] => none

/-- One regex match: the three captured groups (exactly one of them
participates) and the input remaining after the match. -/
structure MatchRes where
  g1 : Option Str
  g2 : Option Str
  g3 : Option Str
  rest : Str
deriving DecidableEq

/-- The alternation `(?:'(.*)'|"(.*)"|(.*?))` followed by `\)`,
applied to the input after the literal head: the single-quoted
branch, else the double-quoted branch, else the bare lazy branch.
Written as the decision tree of the alternation: the quoted
branches apply only when the input starts with their quote, so on
any other first character only the bare branch remains. -/
def tryBranches (t : Str) : Option MatchRes :=
  match t with
  | '\'' :: t1 =>
    match lastClose '\'' t1 with
    | some gr => some ⟨some gr.1, none, none, gr.2⟩
    | none => (lazyToParen t).map (fun gr => ⟨none, none, some gr.1, gr.2⟩)
  | '"' :: t1 =>
    match lastClose '"' t1 with
    | some gr => some ⟨none, some gr.1, none, gr.2⟩
    | none => (lazyToParen t).map (fun gr => ⟨none, none, some gr.1, gr.2⟩)
  | _ => (lazyToParen t).map (fun gr => ⟨none, none, some gr.1, gr.2⟩)

/-- Tries to match the whole pattern at the start of `cs`. -/
def matchAt (cs : Str) : Option MatchRes :=
  if litHead.isPrefixOf cs then tryBranches (cs.drop litHead.length) else none

/-- Python `re.finditer`: leftmost, non-overlapping matches; on
failure advance one character. Fuel is the remaining input length;
every match consumes at least the literal head, so it never runs
out. -/
def finditerAux : Nat → Str → List MatchRes
  | 0, _ => []
  | _ + 1, [] => []
  | fuel + 1, c :: cs =>
    match matchAt (c :: cs) with
    | some m => m :: finditerAux fuel m.rest
    | none => finditerAux fuel cs

/-- All matches of the pattern in `cs`. -/
def finditer (cs : Str) : List MatchRes := finditerAux cs.length cs

/-- Python `match.groups()` for this pattern. -/
def pyGroups (m : MatchRes) : List (Option Str) := [m.g1, m.g2, m.g3]

/-- The source's per-match extraction:
`next(group for group in match.groups() if group is not None)`. -/
def extractQuery (m : MatchRes) : Option Str :=
  (pyGroups m).findSome? id

/-- Extraction as the claim words it: the first captured group that
is non-empty (not merely non-None). -/
def claimFirstNonEmptyGroup (m : MatchRes) : Option Str :=
  (pyGroups m).findSome? (fun g? => g?.bind (fun g => if g = [] then none else some g))

/-- Source `extract_jq_queries`: scan every script's content (the
content lookup `file_at_commit` is abstracted into `contentsOf`) and
collect the queries of all matches in scan order. -/
def extract_jq_queries (contentsOf : Str → Str) (script_paths : List Str) : List Str :=
  script_paths.foldl
    (fun acc script => acc ++ (finditer (contentsOf script)).filterMap extractQuery)
    []

example : (finditer "A=$(get_toolset_value \x27a.b\x27)\n".data).filterMap extractQuery
    = ["a.b".data] := by decide
example : (finditer "A=$(get_toolset_value \x22a.b\x22)\n".data).filterMap extractQuery
    = ["a.b".data] := by decide
example : (finditer "A=$(get_toolset_value a.b)\n".data).filterMap extractQuery
    = ["a.b".data] := by decide
example : (finditer "$(get_toolset_value \x27\x27)".data).filterMap extractQuery
    = [([] : Str)] := by decide

/-! ### ChangeClassifier: `compare_toolset_values`

The JSON parser and the jq evaluator are external collaborators in
the spec; they are abstracted into a document type `Doc`, a result
value type `Val` with decidable (Python `!=`) equality, a parser
`parse` (`none` = `json.loads` raised, the spec's
`ConfigParseError`) and an evaluator `evalq` returning the list of
all results (`jq.compile(q).input_value(t).all()`). -/

/-- The comparison loop of `compare_toolset_values`: for each query
evaluate on both documents and record `(query, result_1, result_2)`
whenever the two result lists differ. -/
def compareDocs {Doc Val : Type} [DecidableEq Val]
    (evalq : Str → Doc → List Val) (t1 t2 : Doc) (queries : List Str) :
    List (Str × List Val × List Val) :=
  queries.foldl
    (fun diffs q =>
      if evalq q t1 ≠ evalq q t2 then diffs ++ [(q, evalq q t1, evalq q t2)] else diffs)
    []

/-- Source `compare_toolset_values`: parse the toolset file at both
commits (`parse false path` at `commit_1`, `parse true path` at
`commit_2`), then run the comparison loop. A parse failure is the
uncaught `json.JSONDecodeError`. -/
def compare_toolset_values {Doc Val : Type} [DecidableEq Val]
    (parse : Bool → Str → Option Doc) (evalq : Str → Doc → List Val)
    (path : Str) (queries : List Str) : Option (List (Str × List Val × List Val)) :=
  match parse false path, parse true path with
  | some t1, some t2 => some (compareDocs evalq t1 t2 queries)
  | _, _ => none

/-! ### `main`: the classification run -/

/-- The two packer template paths of `main`. -/
def hcl22 : Str := "images/ubuntu/templates/ubuntu-22.04.pkr.hcl".data

/-- Second template path. -/
def hcl20 : Str := "images/ubuntu/templates/ubuntu-20.04.pkr.hcl".data

/-- The two toolset configuration paths of `main`. -/
def t2204 : Str := "images/ubuntu/toolsets/toolset-2204.json".data

/-- Second toolset path. -/
def t2004 : Str := "images/ubuntu/toolsets/toolset-2004.json".data

/-- A reported finding of `main`, in print order, plus the final
results block carrying the recommendation ordinal. -/
inductive Event (Val : Type) where
  | scriptsChanged (paths : List Str)
  | templatesChanged (paths : List Str)
  | valuesChanged (file : Str) (diffs : List (Str × List Val × List Val))
  | results (recommendation : Nat)
deriving DecidableEq

/-- The inputs `main` has gathered before the three checks run: the
changed-file set of the three-dot diff, the dependency set, the
extracted queries, and the abstract parser/evaluator pair. -/
structure MainEnv (Doc Val : Type) where
  changed_files : List Str
  scripts_used : List Str
  queries : List Str
  parse : Bool → Str → Option Doc
  evalq : Str → Doc → List Val

/-- `scripts_used & changed_files` of `main` (membership filter over
the dependency set). -/
def changed_scripts {Doc Val : Type} (env : MainEnv Doc Val) : List Str :=
  env.scripts_used.filter (fun s => env.changed_files.contains s)

/-- `{ubuntu22_hcl, ubuntu20_hcl} & changed_files`, in the sorted
order `main` prints it. -/
def changed_hcls {Doc Val : Type} (env : MainEnv Doc Val) : List Str :=
  [hcl20, hcl22].filter (fun s => env.changed_files.contains s)

/-- `{ubuntu20_toolset, ubuntu22_toolset} & changed_files`, in the
sorted order `main` iterates it. -/
def changed_toolsets {Doc Val : Type} (env : MainEnv Doc Val) : List Str :=
  [t2004, t2204].filter (fun s => env.changed_files.contains s)

/-- The recommendation value after the script check:
`recommendation = max(recommendation, 1)` when the intersection is
non-empty. -/
def rec_after_scripts {Doc Val : Type} (env : MainEnv Doc Val) : Nat :=
  if changed_scripts env = [] then 0 else max 0 1

/-- The recommendation value after the template check. -/
def rec_after_hcls {Doc Val : Type} (env : MainEnv Doc Val) : Nat :=
  if changed_hcls env = [] then rec_after_scripts env else max (rec_after_scripts env) 1

/-- The findings printed before the toolset loop. -/
def eventsPre {Doc Val : Type} (env : MainEnv Doc Val) : List (Event Val) :=
  (if changed_scripts env = [] then [] else [Event.scriptsChanged (changed_scripts env)])
    ++ (if changed_hcls env = [] then [] else [Event.templatesChanged (changed_hcls env)])

/-- The toolset loop of `main`: for each changed toolset file call
`compare_toolset_values`; an uncaught parse error aborts the run
(third component `true`), a non-empty difference list escalates the
recommendation to 2 and reports the values. -/
def toolsetLoop {Doc Val : Type} [DecidableEq Val] (env : MainEnv Doc Val) :
    List Str → List (Event Val) → Nat → List (Event Val) × Nat × Bool
  | [], evs, r => (evs, r, false)
  | t :: ts, evs, r =>
    match compare_toolset_values env.parse env.evalq t env.queries with
    | none => (evs, r, true)
    | some ds =>
      if ds = [] then toolsetLoop env ts evs r
      else toolsetLoop env ts (evs ++ [Event.valuesChanged t ds]) (max r 2)

/-- The classification part of `main` (after the git plumbing): the
emitted report events, and whether the run was aborted by an
uncaught configuration parse error before reaching the results
block. -/
def runMain {Doc Val : Type} [DecidableEq Val] (env : MainEnv Doc Val) :
    List (Event Val) × Bool :=
  match toolsetLoop env (changed_toolsets env) (eventsPre env) (rec_after_hcls env) with
  | (evs, _, true) => (evs, true)
  | (evs, r, false) => (evs ++ [Event.results r], false)

/-- Ordinal triggered by the script check. -/
def indScripts {Doc Val : Type} (env : MainEnv Doc Val) : Nat :=
  if changed_scripts env = [] then 0 else 1

/-- Ordinal triggered by the template check. -/
def indTemplates {Doc Val : Type} (env : MainEnv Doc Val) : Nat :=
  if changed_hcls env = [] then 0 else 1

/-- The difference list computed for one toolset file (empty when
the parse fails — the aborted case never reads it). -/
def diffsAt {Doc Val : Type} [DecidableEq Val] (env : MainEnv Doc Val) (t : Str) :
    List (Str × List Val × List Val) :=
  (compare_toolset_values env.parse env.evalq t env.queries).getD []

/-- Ordinal triggered by the configuration-value check. -/
def indValues {Doc Val : Type} [DecidableEq Val] (env : MainEnv Doc Val) : Nat :=
  if (changed_toolsets env).any (fun t => !(diffsAt env t).isEmpty) then 2 else 0

/-! ### Lemmas about tag selection -/

/-- No tag name can match both fixed patterns: one starts with `u`,
the other with `b`. -/
theorem startswith_disjoint (n : Str) :
    startswith n uPat = true → startswith n bPat = true → False := by
  intro hu hb
  rw [startswith, isPrefixOf_iff_isPrefix] at hu hb
  obtain ⟨t1, h1⟩ := hu
  obtain ⟨t2, h2⟩ := hb
  have e1 : (uPat ++ t1).head? = some 'u' := rfl
  have e2 : (bPat ++ t2).head? = some 'b' := rfl
  rw [h1] at e1
  rw [h2] at e2
  exact absurd (e1.symm.trans e2) (by decide)

/-- Head satisfies the predicate: `find?` stops there. -/
theorem find?_cons_pos {α} (p : α → Bool) (a : α) (l : List α) (h : p a = true) :
    (a :: l).find? p = some a :=
  List.find?_cons_of_pos l h

/-- Head fails the predicate: `find?` moves on. -/
theorem find?_cons_neg {α} (p : α → Bool) (a : α) (l : List α) (h : p a = false) :
    (a :: l).find? p = l.find? p :=
  List.find?_cons_of_neg l (by rw [h]; exact Bool.false_ne_true)

/-- A satisfied existential forces `find?` to succeed. -/
theorem find?_isSome_of_exists {α} (p : α → Bool) :
    ∀ l : List α, (∃ x ∈ l, p x = true) → ∃ y, l.find? p = some y := by
  intro l
  induction l with
  | nil =>
    rintro ⟨x, hx, _⟩
    cases hx
  | cons a l ih =>
    rintro ⟨x, hx, hpx⟩
    by_cases ha : p a = true
    · exact ⟨a, find?_cons_pos p a l ha⟩
    · cases List.mem_cons.mp hx with
      | inl h => exact absurd (h ▸ hpx) ha
      | inr h =>
        obtain ⟨y, hy⟩ := ih ⟨x, h, hpx⟩
        refine ⟨y, ?_⟩
        rw [find?_cons_neg p a l (Bool.eq_false_iff.mpr ha)]
        exact hy

/-- If nothing in the list satisfies `p`, the shared-iterator scan
finds nothing. -/
theorem findFirstRest_eq_none {α} (p : α → Bool) :
    ∀ M : List α, (∀ x ∈ M, p x = false) → findFirstRest p M = none := by
  intro M
  induction M with
  | nil => intro; rfl
  | cons x xs ih =>
    intro h
    have hx : p x = false := h x (List.mem_cons_self x xs)
    simp only [findFirstRest, hx, Bool.false_eq_true, if_false]
    exact ih (fun y hy => h y (List.mem_cons_of_mem _ hy))

/-- Characterisation of a successful shared-iterator scan: the found
element satisfies `p` and the returned remainder is the tail after
it. -/
theorem findFirstRest_eq_some {α} (p : α → Bool) :
    ∀ (M : List α) (u : α) (rest : List α), findFirstRest p M = some (u, rest) →
      p u = true ∧ ∃ l1, M = l1 ++ u :: rest := by
  intro M
  induction M with
  | nil => intro u rest h; cases h
  | cons x xs ih =>
    intro u rest h
    by_cases hx : p x = true
    · simp only [findFirstRest, hx, if_true] at h
      cases h
      exact ⟨hx, [], rfl⟩
    · simp only [findFirstRest, hx, if_false] at h
      obtain ⟨hu, l1, hl⟩ := ih u rest h
      exact ⟨hu, x :: l1, by rw [hl]; rfl⟩

/-- When every tag more recent than the first `ubuntu22/` match is
not a `bugswarm/` match, the shared single pass behaves like the two
independent scans the spec describes. -/
theorem scanTags_eq_independent (M : List Str)
    (hOrder : ∀ n ∈ M.takeWhile (fun n => !(startswith n uPat)), startswith n bPat = false)
    (hU : ∃ n ∈ M, startswith n uPat = true)
    (hB : ∃ n ∈ M, startswith n bPat = true) :
    ∃ u b, M.find? (fun n => startswith n uPat) = some u
      ∧ M.find? (fun n => startswith n bPat) = some b
      ∧ scanTags uPat bPat M = some (u, b) := by
  induction M with
  | nil =>
    obtain ⟨n, hn, _⟩ := hU
    cases hn
  | cons x xs ih =>
    by_cases hx : startswith x uPat = true
    · have hxb : startswith x bPat = false := by
        cases hb : startswith x bPat
        · rfl
        · exact (startswith_disjoint x hx hb).elim
      have hBxs : ∃ n ∈ xs, startswith n bPat = true := by
        obtain ⟨n, hn, hnb⟩ := hB
        cases List.mem_cons.mp hn with
        | inl h => exact absurd (h ▸ hnb) (by rw [hxb]; exact Bool.false_ne_true)
        | inr h => exact ⟨n, h, hnb⟩
      obtain ⟨b, hb⟩ := find?_isSome_of_exists _ xs hBxs
      refine ⟨x, b, find?_cons_pos (fun n => startswith n uPat) x xs hx, ?_, ?_⟩
      · rw [find?_cons_neg (fun n => startswith n bPat) x xs hxb]
        exact hb
      · simp only [scanTags, findFirstRest, hx, if_true, hb]
    · have htw : (x :: xs).takeWhile (fun n => !(startswith n uPat))
          = x :: xs.takeWhile (fun n => !(startswith n uPat)) := by
        rw [List.takeWhile_cons_of_pos]
        simp [hx]
      have hxb : startswith x bPat = false := by
        apply hOrder
        rw [htw]
        exact List.mem_cons_self _ _
      have hOrder' : ∀ n ∈ xs.takeWhile (fun n => !(startswith n uPat)),
          startswith n bPat = false := by
        intro n hn
        apply hOrder
        rw [htw]
        exact List.mem_cons_of_mem _ hn
      have hUxs : ∃ n ∈ xs, startswith n uPat = true := by
        obtain ⟨n, hn, hnu⟩ := hU
        cases List.mem_cons.mp hn with
        | inl h => exact absurd (h ▸ hnu) hx
        | inr h => exact ⟨n, h, hnu⟩
      have hBxs : ∃ n ∈ xs, startswith n bPat = true := by
        obtain ⟨n, hn, hnb⟩ := hB
        cases List.mem_cons.mp hn with
        | inl h => exact absurd (h ▸ hnb) (by rw [hxb]; exact Bool.false_ne_true)
        | inr h => exact ⟨n, h, hnb⟩
      obtain ⟨u, b, h1, h2, h3⟩ := ih hOrder' hUxs hBxs
      refine ⟨u, b, ?_, ?_, ?_⟩
      · rw [find?_cons_neg (fun n => startswith n uPat) x xs (Bool.eq_false_iff.mpr hx)]; exact h1
      · rw [find?_cons_neg (fun n => startswith n bPat) x xs hxb]; exact h2
      · simpa only [scanTags, findFirstRest, hx, if_false] using h3

/-- C1 (counterexample): on the date-ascending tag list
`[bugswarm/a, ubuntu22/b, bugswarm/c]` — which has at least one
match per pattern — the source returns `bugswarm/a` as the
`bugswarm/` tag although the latest-dated `bugswarm/` match is
`bugswarm/c`: the shared iterator already consumed `bugswarm/c`
while searching for the `ubuntu22/` tag, so the result does depend
on how the two patterns' matches interleave. -/
theorem C1_counterexample :
    get_latest_releases ["bugswarm/a".data, "ubuntu22/b".data, "bugswarm/c".data]
        = some ("ubuntu22/b".data, "bugswarm/a".data)
    ∧ claimLatestMatch uPat ["bugswarm/a".data, "ubuntu22/b".data, "bugswarm/c".data]
        = some ("ubuntu22/b".data)
    ∧ claimLatestMatch bPat ["bugswarm/a".data, "ubuntu22/b".data, "bugswarm/c".data]
        = some ("bugswarm/c".data)
    ∧ "bugswarm/a".data ≠ "bugswarm/c".data := by
  refine ⟨by decide, by decide, by decide, by decide⟩

/-- C1 (amended): `get_latest_releases` returns, for each of the two
fixed patterns, the most recent tag whose name starts with that
pattern, PROVIDED no `bugswarm/` match is more recent than the most
recent `ubuntu22/` match (i.e. every tag strictly more recent than
the first `ubuntu22/` match of the reversed list is not a
`bugswarm/` match); the single shared scan skips `bugswarm/` matches
that precede the `ubuntu22/` selection. -/
theorem C1_tag_selection (L : List Str)
    (hOrder : ∀ n ∈ L.reverse.takeWhile (fun n => !(startswith n uPat)),
      startswith n bPat = false)
    (hU : ∃ n ∈ L, startswith n uPat = true)
    (hB : ∃ n ∈ L, startswith n bPat = true) :
    ∃ u b, claimLatestMatch uPat L = some u ∧ claimLatestMatch bPat L = some b
      ∧ get_latest_releases L = some (u, b) := by
  have hU' : ∃ n ∈ L.reverse, startswith n uPat = true := by
    obtain ⟨n, hn, h⟩ := hU
    exact ⟨n, List.mem_reverse.mpr hn, h⟩
  have hB' : ∃ n ∈ L.reverse, startswith n bPat = true := by
    obtain ⟨n, hn, h⟩ := hB
    exact ⟨n, List.mem_reverse.mpr hn, h⟩
  exact scanTags_eq_independent L.reverse hOrder hU' hB'

/-- C1 (witness): on `[bugswarm/a, ubuntu22/b]` the hypotheses hold
and the selection is the latest match per pattern. -/
theorem C1_tag_selection_witness :
    ∃ u b, claimLatestMatch uPat ["bugswarm/a".data, "ubuntu22/b".data] = some u
      ∧ claimLatestMatch bPat ["bugswarm/a".data, "ubuntu22/b".data] = some b
      ∧ get_latest_releases ["bugswarm/a".data, "ubuntu22/b".data] = some (u, b) :=
  C1_tag_selection ["bugswarm/a".data, "ubuntu22/b".data]
    (by decide) (by decide) (by decide)

/-- C8: when no tag name matches one of the two patterns, the tag
resolution scan yields nothing (the uncaught `StopIteration` of the
source's `next`, the spec's `NotFoundError`) and the run aborts. -/
theorem C8_no_match_fails (L : List Str) (pA pB : Str)
    (h : (∀ n ∈ L, startswith n pA = false) ∨ (∀ n ∈ L, startswith n pB = false)) :
    scanTags pA pB L.reverse = none := by
  cases h with
  | inl hA =>
    have : findFirstRest (fun n => startswith n pA) L.reverse = none := by
      apply findFirstRest_eq_none
      intro x hx
      exact hA x (List.mem_reverse.mp hx)
    simp only [scanTags, this]
  | inr hB =>
    cases hf : findFirstRest (fun n => startswith n pA) L.reverse with
    | none => simp only [scanTags, hf]
    | some ur =>
      obtain ⟨u, rest⟩ := ur
      obtain ⟨-, l1, hl⟩ := findFirstRest_eq_some _ L.reverse u rest hf
      have hrest : rest.find? (fun n => startswith n pB) = none := by
        rw [List.find?_eq_none]
        intro x hx
        have hxL : x ∈ L := by
          have : x ∈ L.reverse := by
            rw [hl]
            exact List.mem_append_right _ (List.mem_cons_of_mem _ hx)
          exact List.mem_reverse.mp this
        rw [hB x hxL]
        exact Bool.false_ne_true
      simp only [scanTags, hf, hrest]

/-- C8 (witness): a list with `bugswarm/` tags but no `ubuntu22/`
tag (and conversely) makes resolution fail. -/
theorem C8_no_match_fails_witness :
    scanTags uPat bPat (["bugswarm/a".data, "bugswarm/c".data] : List Str).reverse = none
    ∧ scanTags uPat bPat (["ubuntu22/b".data] : List Str).reverse = none :=
  ⟨C8_no_match_fails ["bugswarm/a".data, "bugswarm/c".data] uPat bPat (Or.inl (by decide)),
   C8_no_match_fails ["ubuntu22/b".data] uPat bPat (Or.inr (by decide))⟩

/-- C6: all three quoting forms of the lookup call are recognised;
a script carrying one occurrence of each form yields the query
`a.b` (quotes stripped) for every occurrence. -/
theorem C6_quoting_forms :
    extract_jq_queries
      (fun p =>
        if p = "s1".data then "A=$(get_toolset_value \x27a.b\x27)\n".data
        else if p = "s2".data then "B=$(get_toolset_value \x22a.b\x22)\n".data
        else "C=$(get_toolset_value a.b)\n".data)
      ["s1".data, "s2".data, "s3".data]
    = ["a.b".data, "a.b".data, "a.b".data] := by decide

/-! ### Lemmas about template dependency extraction -/

/-- The accumulator form of the collection loop equals the per-step
flat map. -/
theorem collectScripts_go (steps : List Step) :
    ∀ acc : List Str,
      steps.foldl
        (fun acc st =>
          match st.shell with
          | none => acc
          | some sh =>
            match sh.script with
            | some s => acc ++ [s]
            | none =>
              match sh.scripts with
              | some ss => acc ++ ss
              | none => acc)
        acc
      = acc ++ steps.flatMap claimStepDeps := by
  induction steps with
  | nil => intro acc; simp
  | cons st steps ih =>
    intro acc
    rw [List.foldl_cons, List.flatMap_cons, ih]
    cases hsh : st.shell with
    | none => simp [claimStepDeps, hsh]
    | some sh =>
      cases hs : sh.script with
      | some s => simp [claimStepDeps, hsh, hs]
      | none =>
        cases hss : sh.scripts with
        | some ss => simp [claimStepDeps, hsh, hs, hss]
        | none => simp [claimStepDeps, hsh, hs, hss]

/-- C9: template dependency extraction walks the provisioning steps
and contributes, per step of kind "shell", the single `script` field
when present, else every entry of the `scripts` field when present
(each then path-rewritten); a step lacking a shell specification
contributes no dependency path. -/
theorem C9_template_extraction (steps : List Step) :
    get_scripts_in_template steps = (steps.flatMap claimStepDeps).map rewritePath
    ∧ ∀ st : Step, st.shell = none → claimStepDeps st = [] := by
  constructor
  · show (collectScripts steps).map rewritePath = _
    rw [show collectScripts steps = steps.flatMap claimStepDeps from collectScripts_go steps []]
  · intro st h
    simp [claimStepDeps, h]

/-- C9 (witness): a mixed concrete step list — a `script` step, a
`scripts` step, a non-shell step and an empty shell step. -/
theorem C9_template_extraction_witness :
    get_scripts_in_template
        [⟨some ⟨some "a.sh".data, none⟩⟩, ⟨some ⟨none, some ["b.sh".data, "c.sh".data]⟩⟩,
         ⟨none⟩, ⟨some ⟨none, none⟩⟩]
      = ([["a.sh".data, "b.sh".data, "c.sh".data].flatMap (fun s => [s])].flatten).map rewritePath
    ∧ claimStepDeps ⟨none⟩ = [] := by
  have h := C9_template_extraction
    [⟨some ⟨some "a.sh".data, none⟩⟩, ⟨some ⟨none, some ["b.sh".data, "c.sh".data]⟩⟩,
     ⟨none⟩, ⟨some ⟨none, none⟩⟩]
  refine ⟨?_, h.2 ⟨none⟩ rfl⟩
  rw [h.1]
  decide

/-! ### Lemmas about helper-script traversal -/

/-- A direct child's path is among the traversed paths. -/
theorem path_mem_forestPaths_of_mem :
    ∀ (f : List TreeEntry) (e : TreeEntry), e ∈ f → entryPath e ∈ forestPaths f := by
  intro f
  induction f with
  | nil => intro e he; cases he
  | cons x es ih =>
    intro e he
    cases List.mem_cons.mp he with
    | inl h =>
      subst h
      cases e with
      | blob p =>
        simp only [forestPaths, entryPath]
        exact List.mem_cons_self _ _
      | dir p cs =>
        simp only [forestPaths, entryPath]
        exact List.mem_cons_self _ _
    | inr h =>
      cases x with
      | blob p =>
        simp only [forestPaths]
        exact List.mem_cons_of_mem _ (ih e h)
      | dir p cs =>
        simp only [forestPaths]
        exact List.mem_cons_of_mem _ (List.mem_append_right _ (ih e h))

/-- Paths below a member subdirectory are among the traversed
paths. -/
theorem forestPaths_subset_of_dir_mem :
    ∀ (f : List TreeEntry) (p : Str) (cs : List TreeEntry), TreeEntry.dir p cs ∈ f →
      ∀ q ∈ forestPaths cs, q ∈ forestPaths f := by
  intro f
  induction f with
  | nil => intro p cs h; cases h
  | cons x es ih =>
    intro p cs h q hq
    cases List.mem_cons.mp h with
    | inl hx =>
      subst hx
      simp only [forestPaths]
      exact List.mem_cons_of_mem _ (List.mem_append_left _ hq)
    | inr hx =>
      cases x with
      | blob r =>
        simp only [forestPaths]
        exact List.mem_cons_of_mem _ (ih p cs hx q hq)
      | dir r rcs =>
        simp only [forestPaths]
        exact List.mem_cons_of_mem _ (List.mem_append_right _ (ih p cs hx q hq))

/-- C10: helper-script extraction returns the path of every object
reachable under the helper directory — subdirectory entries
themselves included — so the returned dependency set can contain
directory paths, not only file paths. -/
theorem C10_helper_traverse (f : List TreeEntry) (e : TreeEntry) (h : Reach f e) :
    entryPath e ∈ get_helper_scripts f := by
  induction h with
  | mem hm => exact path_mem_forestPaths_of_mem _ _ hm
  | nest hdir _ ih => exact forestPaths_subset_of_dir_mem _ _ _ hdir _ ih

/-- C10 (witness): a helper directory with one subdirectory holding
one file — both the subdirectory's own path and the nested file's
path are returned. -/
theorem C10_helper_traverse_witness :
    entryPath (TreeEntry.dir "images/ubuntu/scripts/helpers/sub".data
        [TreeEntry.blob "images/ubuntu/scripts/helpers/sub/a.sh".data])
      ∈ get_helper_scripts
          [TreeEntry.dir "images/ubuntu/scripts/helpers/sub".data
            [TreeEntry.blob "images/ubuntu/scripts/helpers/sub/a.sh".data]]
    ∧ entryPath (TreeEntry.blob "images/ubuntu/scripts/helpers/sub/a.sh".data)
      ∈ get_helper_scripts
          [TreeEntry.dir "images/ubuntu/scripts/helpers/sub".data
            [TreeEntry.blob "images/ubuntu/scripts/helpers/sub/a.sh".data]] :=
  ⟨C10_helper_traverse _ _ (Reach.mem (List.mem_singleton.mpr rfl)),
   C10_helper_traverse _ _
     (Reach.nest (List.mem_singleton.mpr rfl) (Reach.mem (List.mem_singleton.mpr rfl)))⟩

/-! ### Lemmas about configuration-value comparison -/

/-- The accumulator form of the comparison loop equals a
`filterMap` over the queries. -/
theorem compareDocs_go {Doc Val : Type} [DecidableEq Val]
    (evalq : Str → Doc → List Val) (t1 t2 : Doc) :
    ∀ (qs : List Str) (acc : List (Str × List Val × List Val)),
      qs.foldl
        (fun diffs q =>
          if evalq q t1 ≠ evalq q t2 then diffs ++ [(q, evalq q t1, evalq q t2)] else diffs)
        acc
      = acc ++ qs.filterMap
          (fun q =>
            if evalq q t1 ≠ evalq q t2 then some (q, evalq q t1, evalq q t2) else none) := by
  intro qs
  induction qs with
  | nil => intro acc; simp
  | cons q qs ih =>
    intro acc
    by_cases h : evalq q t1 ≠ evalq q t2
    · simp only [List.foldl_cons, List.filterMap_cons, if_pos h, ih, List.append_assoc,
        List.singleton_append]
    · simp only [List.foldl_cons, List.filterMap_cons, if_neg h, ih]

/-- `compareDocs` as a `filterMap`. -/
theorem compareDocs_eq_filterMap {Doc Val : Type} [DecidableEq Val]
    (evalq : Str → Doc → List Val) (t1 t2 : Doc) (qs : List Str) :
    compareDocs evalq t1 t2 qs
      = qs.filterMap
          (fun q =>
            if evalq q t1 ≠ evalq q t2 then some (q, evalq q t1, evalq q t2) else none) := by
  rw [compareDocs, compareDocs_go evalq t1 t2 qs []]
  rfl

/-- C7: a `Difference` is recorded for a query exactly when the two
evaluated result lists (Python list `!=`: ordered value equality of
the jq result sequences) differ, the recorded results are the
evaluations at the two documents, and swapping the document roles
maps the recorded differences by flipping the old/new components —
so detection is preserved under the swap. -/
theorem C7_compare_symmetry {Doc Val : Type} [DecidableEq Val]
    (evalq : Str → Doc → List Val) (t1 t2 : Doc) (qs : List Str) :
    (∀ q r1 r2, (q, r1, r2) ∈ compareDocs evalq t1 t2 qs →
      q ∈ qs ∧ r1 = evalq q t1 ∧ r2 = evalq q t2 ∧ r1 ≠ r2)
    ∧ (∀ q ∈ qs, evalq q t1 ≠ evalq q t2 →
      (q, evalq q t1, evalq q t2) ∈ compareDocs evalq t1 t2 qs)
    ∧ compareDocs evalq t2 t1 qs
      = (compareDocs evalq t1 t2 qs).map (fun d => (d.1, d.2.2, d.2.1)) := by
  refine ⟨?_, ?_, ?_⟩
  · intro q r1 r2 hm
    rw [compareDocs_eq_filterMap, List.mem_filterMap] at hm
    obtain ⟨a, ha, hfa⟩ := hm
    by_cases h : evalq a t1 ≠ evalq a t2
    · rw [if_pos h] at hfa
      obtain ⟨rfl, rfl, rfl⟩ : a = q ∧ evalq a t1 = r1 ∧ evalq a t2 = r2 := by
        injection hfa with h'
        exact ⟨congrArg Prod.fst h', congrArg (fun p => p.2.1) h', congrArg (fun p => p.2.2) h'⟩
      exact ⟨ha, rfl, rfl, h⟩
    · rw [if_neg h] at hfa
      cases hfa
  · intro q hq hne
    rw [compareDocs_eq_filterMap, List.mem_filterMap]
    exact ⟨q, hq, if_pos hne⟩
  · rw [compareDocs_eq_filterMap, compareDocs_eq_filterMap, List.map_filterMap]
    apply List.filterMap_congr
    intro q _
    by_cases h : evalq q t1 = evalq q t2
    · rw [if_neg (by simpa using h.symm), if_neg (by simpa using h)]
      rfl
    · rw [if_pos (by simpa using Ne.symm h), if_pos (by simpa using h)]
      rfl

/-- C7 (witness): one query, evaluator returning the document
itself: the difference is recorded and the swapped comparison is the
flipped map of the original. -/
theorem C7_compare_symmetry_witness :
    (("q".data, ([0] : List Nat), ([1] : List Nat))
        ∈ compareDocs (fun _ d => [d]) (0 : Nat) 1 ["q".data])
    ∧ compareDocs (fun _ d => [d]) (1 : Nat) 0 ["q".data]
      = (compareDocs (fun _ d => [d]) (0 : Nat) 1 ["q".data]).map (fun d => (d.1, d.2.2, d.2.1)) :=
  ⟨(C7_compare_symmetry (fun _ d => [d]) (0 : Nat) 1 ["q".data]).2.1 "q".data
      (List.mem_singleton.mpr rfl) (by decide),
   (C7_compare_symmetry (fun _ d => [d]) (0 : Nat) 1 ["q".data]).2.2⟩

/-! ### Lemmas about query extraction -/

/-- A successful branch match carries exactly one participating
group. -/
theorem tryBranches_shape (t : Str) (m : MatchRes) (h : tryBranches t = some m) :
    (∃ g r, m = ⟨some g, none, none, r⟩)
    ∨ (∃ g r, m = ⟨none, some g, none, r⟩)
    ∨ (∃ g r, m = ⟨none, none, some g, r⟩) := by
  unfold tryBranches at h
  split at h
  · split at h
    · cases h
      exact Or.inl ⟨_, _, rfl⟩
    · cases hl : lazyToParen _ with
      | some gr =>
        rw [hl] at h
        cases h
        exact Or.inr (Or.inr ⟨_, _, rfl⟩)
      | none => rw [hl] at h; cases h
  · split at h
    · cases h
      exact Or.inr (Or.inl ⟨_, _, rfl⟩)
    · cases hl : lazyToParen _ with
      | some gr =>
        rw [hl] at h
        cases h
        exact Or.inr (Or.inr ⟨_, _, rfl⟩)
      | none => rw [hl] at h; cases h
  · cases hl : lazyToParen _ with
    | some gr =>
      rw [hl] at h
      cases h
      exact Or.inr (Or.inr ⟨_, _, rfl⟩)
    | none => rw [hl] at h; cases h

/-- Every match produced by `matchAt` has exactly one participating
group, and the extracted query is exactly that group. -/
theorem matchAt_groups (cs : Str) (m : MatchRes) (h : matchAt cs = some m) :
    ((pyGroups m).filterMap id).length = 1
    ∧ extractQuery m = ((pyGroups m).filterMap id).head?
    ∧ ∃ g, extractQuery m = some g := by
  rw [matchAt] at h
  by_cases hp : litHead.isPrefixOf cs
  · rw [if_pos hp] at h
    rcases tryBranches_shape _ m h with ⟨g, r, rfl⟩ | ⟨g, r, rfl⟩ | ⟨g, r, rfl⟩
    · exact ⟨rfl, rfl, g, rfl⟩
    · exact ⟨rfl, rfl, g, rfl⟩
    · exact ⟨rfl, rfl, g, rfl⟩
  · rw [if_neg hp] at h
    cases h

/-- Every element of the match list comes from a successful
`matchAt`. -/
theorem mem_finditerAux :
    ∀ (fuel : Nat) (cs : Str) (m : MatchRes), m ∈ finditerAux fuel cs →
      ∃ t, matchAt t = some m := by
  intro fuel
  induction fuel with
  | zero => intro cs m h; cases h
  | succ fuel ih =>
    intro cs m h
    cases cs with
    | nil => cases h
    | cons c cs' =>
      simp only [finditerAux] at h
      cases hm : matchAt (c :: cs') with
      | some m0 =>
        rw [hm] at h
        cases List.mem_cons.mp h with
        | inl he => exact ⟨c :: cs', he ▸ hm⟩
        | inr ht => exact ih _ m ht
      | none =>
        rw [hm] at h
        exact ih _ m h

/-- C4 (amended): every occurrence matched in a script's text
yields exactly one query string, namely the unique participating
(non-None) captured group — the first non-None group of the match;
that group may well be the empty string (an empty quoted argument),
in which case the empty query is yielded. -/
theorem C4_query_extraction (cs : Str) (m : MatchRes) (h : m ∈ finditer cs) :
    ((pyGroups m).filterMap id).length = 1
    ∧ extractQuery m = ((pyGroups m).filterMap id).head?
    ∧ ∃ g, extractQuery m = some g := by
  obtain ⟨t, ht⟩ := mem_finditerAux cs.length cs m h
  exact matchAt_groups t m ht

/-- C4 (witness): the bare-form call `$(get_toolset_value a.b)`
produces the match whose only participating group is the third. -/
theorem C4_query_extraction_witness :
    ((pyGroups ⟨none, none, some "a.b".data, []⟩).filterMap id).length = 1
    ∧ extractQuery ⟨none, none, some "a.b".data, []⟩
        = ((pyGroups ⟨none, none, some "a.b".data, []⟩).filterMap id).head?
    ∧ ∃ g, extractQuery ⟨none, none, some "a.b".data, []⟩ = some g :=
  C4_query_extraction "$(get_toolset_value a.b)".data
    ⟨none, none, some "a.b".data, []⟩ (by decide)

/-- C4 (counterexample): on the empty single-quoted argument
`$(get_toolset_value '')` the source yields the EMPTY query string
(the participating group is present but empty), while no non-empty
captured group exists — so "the first non-empty captured group"
does not describe the extraction. -/
theorem C4_counterexample :
    (finditer "$(get_toolset_value \x27\x27)".data).filterMap extractQuery = [([] : Str)]
    ∧ (finditer "$(get_toolset_value \x27\x27)".data).filterMap claimFirstNonEmptyGroup
        = [] :=
  ⟨by decide, by decide⟩

/-! ### Adequacy of the fuelled recursions

The fuel of `finditerAux` and `pyReplaceAux` equals the input
length and every step consumes at least one character; the lemmas
below prove that, so the fuel never changes the result. -/

/-- One-step unfolding of `lastClose` at a cons cell. -/
theorem lastClose_cons (q c : Char) (cs : Str) :
    lastClose q (c :: cs)
      = if c = '\n' then none
        else
          match lastClose q cs with
          | some (g, r) => some (c :: g, r)
          | none =>
            match cs with
            | c2 :: r => if c = q ∧ c2 = ')' then some ([], r) else none
            | [] => none := rfl

/-- A successful greedy quoted match splits the input exactly. -/
theorem lastClose_spec (q : Char) :
    ∀ (t g r : Str), lastClose q t = some (g, r) → t = g ++ q :: ')' :: r := by
  intro t
  induction t with
  | nil => intro g r h; cases h
  | cons c cs ih =>
    intro g r h
    rw [lastClose_cons] at h
    by_cases hnl : c = '\n'
    · rw [if_pos hnl] at h
      cases h
    · rw [if_neg hnl] at h
      cases hrec : lastClose q cs with
      | some gr =>
        obtain ⟨g0, r0⟩ := gr
        rw [hrec] at h
        dsimp only at h
        cases h
        rw [List.cons_append, ih g0 r hrec]
      | none =>
        rw [hrec] at h
        dsimp only at h
        cases cs with
        | nil => cases h
        | cons c2 r1 =>
          dsimp only at h
          by_cases hcq : c = q ∧ c2 = ')'
          · rw [if_pos hcq] at h
            cases h
            rw [hcq.1, hcq.2]
            rfl
          · rw [if_neg hcq] at h
            cases h

/-- A successful lazy match splits the input exactly. -/
theorem lazyToParen_spec :
    ∀ (t g r : Str), lazyToParen t = some (g, r) → t = g ++ ')' :: r := by
  intro t g r h
  unfold lazyToParen at h
  dsimp only at h
  have hpre : t.takeWhile (fun c : Char => ¬(c = ')' ∨ c = '\n')) <+: t :=
    List.takeWhile_prefix _
  obtain ⟨s, hs⟩ := hpre
  have hdrop : List.drop (t.takeWhile (fun c : Char => ¬(c = ')' ∨ c = '\n'))).length t = s := by
    nth_rewrite 2 [← hs]
    exact List.drop_left _ _
  rw [hdrop] at h
  cases s with
  | nil => cases h
  | cons c r0 =>
    dsimp only at h
    by_cases hc : c = ')'
    · rw [if_pos hc] at h
      cases h
      rw [hc] at hs
      exact hs.symm
    · rw [if_neg hc] at h
      cases h

/-- A successful branch match strictly shrinks the tail. -/
theorem tryBranches_rest_lt (t : Str) (m : MatchRes) (h : tryBranches t = some m) :
    m.rest.length < t.length := by
  unfold tryBranches at h
  split at h
  · rename_i t1
    cases hl : lastClose '\'' t1 with
    | some gr =>
      rw [hl] at h
      cases h
      have hspec := lastClose_spec '\'' t1 gr.1 gr.2 (by rw [hl])
      have := congrArg List.length hspec
      simp only [List.length_append, List.length_cons] at this ⊢
      omega
    | none =>
      rw [hl] at h
      obtain ⟨gr, hgr, hm⟩ := Option.map_eq_some'.mp h
      subst hm
      have hspec := lazyToParen_spec _ gr.1 gr.2 (by rw [hgr])
      have := congrArg List.length hspec
      simp only [List.length_append, List.length_cons] at this ⊢
      omega
  · rename_i t1
    cases hl : lastClose '"' t1 with
    | some gr =>
      rw [hl] at h
      cases h
      have hspec := lastClose_spec '"' t1 gr.1 gr.2 (by rw [hl])
      have := congrArg List.length hspec
      simp only [List.length_append, List.length_cons] at this ⊢
      omega
    | none =>
      rw [hl] at h
      obtain ⟨gr, hgr, hm⟩ := Option.map_eq_some'.mp h
      subst hm
      have hspec := lazyToParen_spec _ gr.1 gr.2 (by rw [hgr])
      have := congrArg List.length hspec
      simp only [List.length_append, List.length_cons] at this ⊢
      omega
  · obtain ⟨gr, hgr, hm⟩ := Option.map_eq_some'.mp h
    subst hm
    have hspec := lazyToParen_spec _ gr.1 gr.2 (by rw [hgr])
    have := congrArg List.length hspec
    simp only [List.length_append, List.length_cons] at this ⊢
    omega

/-- A match consumes at least one character of the input. -/
theorem matchAt_rest_lt (cs : Str) (m : MatchRes) (h : matchAt cs = some m) :
    m.rest.length < cs.length := by
  rw [matchAt] at h
  by_cases hp : litHead.isPrefixOf cs = true
  · rw [if_pos hp] at h
    obtain ⟨t, ht⟩ := (isPrefixOf_iff_isPrefix litHead cs).mp hp
    have hdrop : cs.drop litHead.length = t := by
      conv in List.drop _ cs => rw [← ht]
      exact List.drop_left _ _
    rw [hdrop] at h
    have hlt := tryBranches_rest_lt t m h
    have := congrArg List.length ht
    simp only [List.length_append] at this
    omega
  · rw [if_neg hp] at h
    cases h

/-- The fuel `cs.length` of `finditer` is sufficient: any larger
fuel yields the same match list. -/
theorem finditerAux_adequate :
    ∀ (f : Nat) (cs : Str), cs.length ≤ f → finditerAux f cs = finditer cs := by
  intro f
  induction f using Nat.strong_induction_on with
  | _ f ih =>
    intro cs hcs
    cases f with
    | zero =>
      have : cs = [] := List.length_eq_zero.mp (Nat.le_zero.mp hcs)
      subst this
      rfl
    | succ f =>
      cases cs with
      | nil => rfl
      | cons c cs' =>
        simp only [List.length_cons] at hcs
        cases hm : matchAt (c :: cs') with
        | none =>
          show finditerAux (f + 1) (c :: cs') = finditerAux (cs'.length + 1) (c :: cs')
          simp only [finditerAux, hm]
          rw [ih f (Nat.lt_succ_self f) cs' (by omega)]
          rfl
        | some m =>
          have hrest := matchAt_rest_lt _ m hm
          simp only [List.length_cons] at hrest
          show finditerAux (f + 1) (c :: cs') = finditerAux (cs'.length + 1) (c :: cs')
          simp only [finditerAux, hm]
          rw [ih f (Nat.lt_succ_self f) m.rest (by omega),
            ih cs'.length (by omega) m.rest (by omega)]

/-- The fuel `s.length` of `pyReplace` is sufficient for a
non-empty token. -/
theorem pyReplaceAux_adequate (tok rep : Str) (htok : tok ≠ []) :
    ∀ (f : Nat) (s : Str), s.length ≤ f → pyReplaceAux tok rep f s = pyReplace tok rep s := by
  have htoklen : 1 ≤ tok.length := List.length_pos.mpr htok
  intro f
  induction f using Nat.strong_induction_on with
  | _ f ih =>
    intro s hs
    cases f with
    | zero =>
      have : s = [] := List.length_eq_zero.mp (Nat.le_zero.mp hs)
      subst this
      rfl
    | succ f =>
      cases s with
      | nil => rfl
      | cons c cs =>
        simp only [List.length_cons] at hs
        show pyReplaceAux tok rep (f + 1) (c :: cs)
          = pyReplaceAux tok rep (cs.length + 1) (c :: cs)
        by_cases htokp : tok.isPrefixOf (c :: cs) = true
        · rw [show pyReplaceAux tok rep (f + 1) (c :: cs)
              = rep ++ pyReplaceAux tok rep f (List.drop tok.length (c :: cs)) by
            simp only [pyReplaceAux, htokp, if_true]]
          rw [show pyReplaceAux tok rep (cs.length + 1) (c :: cs)
              = rep ++ pyReplaceAux tok rep cs.length (List.drop tok.length (c :: cs)) by
            simp only [pyReplaceAux, htokp, if_true]]
          have hdl : (List.drop tok.length (c :: cs)).length ≤ cs.length := by
            rw [List.length_drop]
            simp only [List.length_cons]
            omega
          rw [ih f (Nat.lt_succ_self f) _ (by omega),
            ih cs.length (by omega) _ (by omega)]
        · rw [show pyReplaceAux tok rep (f + 1) (c :: cs)
              = c :: pyReplaceAux tok rep f cs by
            simp only [pyReplaceAux, htokp, Bool.false_eq_true, if_false]]
          rw [show pyReplaceAux tok rep (cs.length + 1) (c :: cs)
              = c :: pyReplaceAux tok rep cs.length cs by
            simp only [pyReplaceAux, htokp, Bool.false_eq_true, if_false]]
          rw [ih f (Nat.lt_succ_self f) cs (by omega)]
          rfl

/-! ### Lemmas about the placeholder rewrite -/

/-- A prefix of an append splits: either inside the left part, or
the whole left part plus a prefix of the right part. -/
theorem prefix_append_cases {α} : ∀ (a b w : List α), w <+: a ++ b →
    w <+: a ∨ ∃ w2, w = a ++ w2 ∧ w2 <+: b := by
  intro a
  induction a with
  | nil => intro b w h; exact Or.inr ⟨w, rfl, h⟩
  | cons x a ih =>
    intro b w h
    cases w with
    | nil => exact Or.inl List.nil_prefix
    | cons y w' =>
      rw [List.cons_append] at h
      obtain ⟨hyx, h'⟩ := List.cons_prefix_cons.mp h
      subst hyx
      cases ih b w' h' with
      | inl h2 => exact Or.inl (List.cons_prefix_cons.mpr ⟨rfl, h2⟩)
      | inr h2 =>
        obtain ⟨w2, rfl, hw2⟩ := h2
        exact Or.inr ⟨w2, rfl, hw2⟩

/-- An infix of an append lies in the left part, in the right part,
or straddles the boundary as a non-empty suffix of the left part
followed by a non-empty prefix of the right part. -/
theorem infix_append_cases {α} : ∀ (a b w : List α), w <:+: a ++ b →
    w <:+: a ∨ w <:+: b ∨
      ∃ w1 w2, w = w1 ++ w2 ∧ w1 ≠ [] ∧ w2 ≠ [] ∧ w1 <:+ a ∧ w2 <+: b := by
  intro a
  induction a with
  | nil => intro b w h; exact Or.inr (Or.inl h)
  | cons x a ih =>
    intro b w h
    rw [List.cons_append] at h
    rcases List.infix_cons_iff.mp h with hpre | hinf
    · cases w with
      | nil => exact Or.inl List.nil_infix
      | cons y w' =>
        obtain ⟨hyx, h'⟩ := List.cons_prefix_cons.mp hpre
        subst hyx
        cases prefix_append_cases a b w' h' with
        | inl h2 => exact Or.inl (List.cons_prefix_cons.mpr ⟨rfl, h2⟩).isInfix
        | inr h2 =>
          obtain ⟨w2, rfl, hw2⟩ := h2
          by_cases hw2nil : w2 = []
          · subst hw2nil
            refine Or.inl ?_
            rw [List.append_nil]
          · refine Or.inr (Or.inr ⟨y :: a, w2, ?_, List.cons_ne_nil y a, hw2nil,
              List.suffix_refl _, hw2⟩)
            rw [List.cons_append]
    · rcases ih b w hinf with h1 | h2 | h3
      · exact Or.inl (h1.trans (List.suffix_cons x a).isInfix)
      · exact Or.inr (Or.inl h2)
      · obtain ⟨w1, w2, hw, hn1, hn2, hsuf, hpre2⟩ := h3
        exact Or.inr (Or.inr ⟨w1, w2, hw, hn1, hn2, hsuf.trans (List.suffix_cons x a), hpre2⟩)

/-- Invariant of the replacement scan: a non-empty infix of the
token that is a prefix of the output is already a prefix of the
input — possible because the replacement's first character occurs
nowhere in the token, so no token fragment can lean on replaced
text. -/
theorem pyReplaceAux_tokInfix_prefix (tok rep : Str) (hrep : rep ≠ [])
    (hrepHead : ∀ c : Char, rep.head? = some c → c ∉ tok) :
    ∀ (fuel : Nat) (s w : Str), w ≠ [] → w <:+: tok →
      w <+: pyReplaceAux tok rep fuel s → w <+: s := by
  intro fuel
  induction fuel with
  | zero => intro s w _ _ h; exact h
  | succ fuel ih =>
    intro s w hw hwtok hpre
    cases s with
    | nil =>
      simp only [pyReplaceAux] at hpre
      exact hpre
    | cons c cs =>
      by_cases htokp : tok.isPrefixOf (c :: cs) = true
      · rw [show pyReplaceAux tok rep (fuel + 1) (c :: cs)
            = rep ++ pyReplaceAux tok rep fuel (List.drop tok.length (c :: cs)) by
          simp only [pyReplaceAux, htokp, if_true]] at hpre
        cases w with
        | nil => exact absurd rfl hw
        | cons wh wt =>
          cases rep with
          | nil => exact absurd rfl hrep
          | cons rh rt =>
            rw [List.cons_append] at hpre
            obtain ⟨hwh, -⟩ := List.cons_prefix_cons.mp hpre
            have hmem : wh ∈ tok := hwtok.subset (List.mem_cons_self wh wt)
            have : wh ∉ tok := hwh ▸ hrepHead rh rfl
            exact absurd hmem this
      · rw [show pyReplaceAux tok rep (fuel + 1) (c :: cs)
            = c :: pyReplaceAux tok rep fuel cs by
          simp only [pyReplaceAux, htokp, Bool.false_eq_true, if_false]] at hpre
        cases w with
        | nil => exact absurd rfl hw
        | cons wh wt =>
          obtain ⟨hwh, hwt⟩ := List.cons_prefix_cons.mp hpre
          subst hwh
          by_cases hwtnil : wt = []
          · subst hwtnil
            exact List.cons_prefix_cons.mpr ⟨rfl, List.nil_prefix⟩
          · have hwtinfix : wt <:+: tok :=
              (List.IsSuffix.isInfix ⟨[wh], rfl⟩).trans hwtok
            exact List.cons_prefix_cons.mpr ⟨rfl, ih cs wt hwtnil hwtinfix hwt⟩

/-- The output of the replacement scan never contains the token:
occurrences in the input are consumed, and — since the token's
first character occurs nowhere in the replacement and vice versa —
no new occurrence can arise at a boundary. -/
theorem pyReplaceAux_no_token (tok rep : Str) (htok : tok ≠ []) (hrep : rep ≠ [])
    (hrepHead : ∀ c : Char, rep.head? = some c → c ∉ tok)
    (htokHead : ∀ c : Char, tok.head? = some c → c ∉ rep) :
    ∀ (fuel : Nat) (s : Str), s.length ≤ fuel →
      ¬ tok <:+: pyReplaceAux tok rep fuel s := by
  intro fuel
  induction fuel with
  | zero =>
    intro s hs h
    have hnil : s = [] := List.length_eq_zero.mp (Nat.le_zero.mp hs)
    subst hnil
    exact htok (List.infix_nil.mp h)
  | succ fuel ih =>
    intro s hs h
    cases s with
    | nil =>
      simp only [pyReplaceAux] at h
      exact htok (List.infix_nil.mp h)
    | cons c cs =>
      have htoklen : 1 ≤ tok.length := List.length_pos.mpr htok
      by_cases htokp : tok.isPrefixOf (c :: cs) = true
      · rw [show pyReplaceAux tok rep (fuel + 1) (c :: cs)
            = rep ++ pyReplaceAux tok rep fuel (List.drop tok.length (c :: cs)) by
          simp only [pyReplaceAux, htokp, if_true]] at h
        have hdroplen : (List.drop tok.length (c :: cs)).length ≤ fuel := by
          rw [List.length_drop]
          simp only [List.length_cons] at hs ⊢
          omega
        rcases infix_append_cases rep _ tok h with h1 | h2 | h3
        · cases tok with
          | nil => exact htok rfl
          | cons th tt =>
            exact absurd (h1.subset (List.mem_cons_self th tt)) (htokHead th rfl)
        · exact ih _ hdroplen h2
        · obtain ⟨w1, w2, hw, hn1, _, hsuf, -⟩ := h3
          cases tok with
          | nil => exact htok rfl
          | cons th tt =>
            cases w1 with
            | nil => exact absurd rfl hn1
            | cons w1h w1t =>
              have hw1h : w1h = th := by
                have := congrArg List.head? hw
                simpa using this.symm
              subst hw1h
              exact absurd (hsuf.subset (List.mem_cons_self w1h w1t))
                (htokHead w1h rfl)
      · rw [show pyReplaceAux tok rep (fuel + 1) (c :: cs)
            = c :: pyReplaceAux tok rep fuel cs by
          simp only [pyReplaceAux, htokp, Bool.false_eq_true, if_false]] at h
        have hcslen : cs.length ≤ fuel := by
          simp only [List.length_cons] at hs
          omega
        rcases List.infix_cons_iff.mp h with hpre | hinf
        · cases tok with
          | nil => exact htok rfl
          | cons th tt =>
            obtain ⟨hth, htt⟩ := List.cons_prefix_cons.mp hpre
            subst hth
            by_cases httnil : tt = []
            · subst httnil
              exact htokp ((isPrefixOf_iff_isPrefix [th] (th :: cs)).mpr
                (List.cons_prefix_cons.mpr ⟨rfl, List.nil_prefix⟩))
            · have httinfix : tt <:+: th :: tt := List.IsSuffix.isInfix ⟨[th], rfl⟩
              have httpre : tt <+: cs :=
                pyReplaceAux_tokInfix_prefix (th :: tt) rep hrep hrepHead fuel cs tt
                  httnil httinfix htt
              exact htokp ((isPrefixOf_iff_isPrefix (th :: tt) (th :: cs)).mpr
                (List.cons_prefix_cons.mpr ⟨rfl, httpre⟩))
        · exact ih _ hcslen hinf

/-- Inputs free of the token pass through the replacement scan
unchanged. -/
theorem pyReplaceAux_id_of_no_token (tok rep : Str) :
    ∀ (fuel : Nat) (s : Str), ¬ tok <:+: s → pyReplaceAux tok rep fuel s = s := by
  intro fuel
  induction fuel with
  | zero => intro s _; rfl
  | succ fuel ih =>
    intro s hno
    cases s with
    | nil => rfl
    | cons c cs =>
      have htokp : ¬ tok.isPrefixOf (c :: cs) = true := by
        intro hp
        exact hno ((isPrefixOf_iff_isPrefix tok (c :: cs)).mp hp).isInfix
      rw [show pyReplaceAux tok rep (fuel + 1) (c :: cs)
            = c :: pyReplaceAux tok rep fuel cs by
          simp only [pyReplaceAux, htokp, Bool.false_eq_true, if_false]]
      rw [ih cs (fun hinf => hno (hinf.trans (List.suffix_cons c cs).isInfix))]

/-- The first character of the replacement occurs nowhere in the
placeholder token. -/
theorem repoScriptsBase_head_not_in_phToken :
    ∀ c : Char, repoScriptsBase.head? = some c → c ∉ phToken := by
  intro c hc
  have : c = 'i' := by
    have h : some ('i' : Char) = some c := hc ▸ rfl
    exact (Option.some.injEq _ _ ▸ h).symm
  subst this
  decide

/-- The first character of the placeholder token occurs nowhere in
the replacement. -/
theorem phToken_head_not_in_repoScriptsBase :
    ∀ c : Char, phToken.head? = some c → c ∉ repoScriptsBase := by
  intro c hc
  have : c = '$' := by
    have h : some ('$' : Char) = some c := hc ▸ rfl
    exact (Option.some.injEq _ _ ▸ h).symm
  subst this
  decide

/-- C5 (counterexample): a path containing the placeholder token in
the middle is rewritten, but the result does NOT start with the
repository-relative scripts base — `str.replace` substitutes at any
position, not only at the front. -/
theorem C5_counterexample :
    phToken <:+: "x$\x7bpath.root\x7d/..".data
    ∧ rewritePath "x$\x7bpath.root\x7d/..".data = "ximages/ubuntu".data
    ∧ ¬ repoScriptsBase <+: rewritePath "x$\x7bpath.root\x7d/..".data :=
  ⟨by decide, by decide, by decide⟩

/-- C5 (amended): the rewrite maps every path that STARTS with the
placeholder token to a path starting with the repository-relative
base, leaves every path not containing the token anywhere
unchanged, and is idempotent on every path. -/
theorem C5_path_rewrite (p : Str) :
    (phToken <+: p → repoScriptsBase <+: rewritePath p)
    ∧ (¬ phToken <:+: p → rewritePath p = p)
    ∧ rewritePath (rewritePath p) = rewritePath p := by
  refine ⟨?_, ?_, ?_⟩
  · intro hpre
    cases p with
    | nil =>
      have : phToken = [] := List.prefix_nil.mp hpre
      exact absurd this (by decide)
    | cons c cs =>
      have htokp : phToken.isPrefixOf (c :: cs) = true :=
        (isPrefixOf_iff_isPrefix phToken (c :: cs)).mpr hpre
      rw [show rewritePath (c :: cs)
            = repoScriptsBase
              ++ pyReplaceAux phToken repoScriptsBase cs.length
                  (List.drop phToken.length (c :: cs)) by
          simp only [rewritePath, pyReplace, List.length_cons, pyReplaceAux, htokp, if_true]]
      exact ⟨_, rfl⟩
  · intro hno
    exact pyReplaceAux_id_of_no_token phToken repoScriptsBase p.length p hno
  · have hnotok : ¬ phToken <:+: rewritePath p :=
      pyReplaceAux_no_token phToken repoScriptsBase (by decide) (by decide)
        repoScriptsBase_head_not_in_phToken phToken_head_not_in_repoScriptsBase
        p.length p (Nat.le_refl _)
    exact pyReplaceAux_id_of_no_token phToken repoScriptsBase
      (rewritePath p).length (rewritePath p) hnotok

/-- C5 (witness): a token-headed path is rewritten under the base,
and a token-free path passes through unchanged. -/
theorem C5_path_rewrite_witness :
    repoScriptsBase <+: rewritePath "$\x7bpath.root\x7d/../scripts/build/a.sh".data
    ∧ rewritePath "images/ubuntu/scripts/helpers/os.sh".data
        = "images/ubuntu/scripts/helpers/os.sh".data :=
  ⟨(C5_path_rewrite "$\x7bpath.root\x7d/../scripts/build/a.sh".data).1 (by decide),
   (C5_path_rewrite "images/ubuntu/scripts/helpers/os.sh".data).2.1 (by decide)⟩

/-! ### Lemmas about the classification run -/

/-- The loop only ever escalates the recommendation. -/
theorem toolsetLoop_mono {Doc Val : Type} [DecidableEq Val] (env : MainEnv Doc Val) :
    ∀ (ts : List Str) (evs : List (Event Val)) (r : Nat),
      r ≤ (toolsetLoop env ts evs r).2.1 := by
  intro ts
  induction ts with
  | nil => intro evs r; exact Nat.le_refl r
  | cons t ts ih =>
    intro evs r
    cases h : compare_toolset_values env.parse env.evalq t env.queries with
    | none =>
      simp only [toolsetLoop, h]
      exact Nat.le_refl r
    | some ds =>
      simp only [toolsetLoop, h]
      by_cases hds : ds = []
      · rw [if_pos hds]
        exact ih evs r
      · rw [if_neg hds]
        exact Nat.le_trans (Nat.le_max_left r 2) (ih _ (max r 2))

/-- The loop only appends to the already-emitted events. -/
theorem toolsetLoop_events_extend {Doc Val : Type} [DecidableEq Val] (env : MainEnv Doc Val) :
    ∀ (ts : List Str) (evs : List (Event Val)) (r : Nat),
      evs <+: (toolsetLoop env ts evs r).1 := by
  intro ts
  induction ts with
  | nil => intro evs r; exact List.prefix_refl evs
  | cons t ts ih =>
    intro evs r
    cases h : compare_toolset_values env.parse env.evalq t env.queries with
    | none =>
      simp only [toolsetLoop, h]
      exact List.prefix_refl evs
    | some ds =>
      simp only [toolsetLoop, h]
      by_cases hds : ds = []
      · rw [if_pos hds]
        exact ih evs r
      · rw [if_neg hds]
        exact (List.prefix_append evs _).trans (ih _ (max r 2))

/-- On a completed (non-aborted) loop, the outgoing recommendation
is the incoming one, escalated to 2 exactly when some changed
toolset file has a non-empty difference list. -/
theorem toolsetLoop_rec_of_complete {Doc Val : Type} [DecidableEq Val] (env : MainEnv Doc Val) :
    ∀ (ts : List Str) (evs : List (Event Val)) (r : Nat),
      (toolsetLoop env ts evs r).2.2 = false →
      (toolsetLoop env ts evs r).2.1
        = if ts.any (fun t => !(diffsAt env t).isEmpty) then max r 2 else r := by
  intro ts
  induction ts with
  | nil => intro evs r _; rfl
  | cons t ts ih =>
    intro evs r hdone
    cases hc : compare_toolset_values env.parse env.evalq t env.queries with
    | none =>
      simp only [toolsetLoop, hc] at hdone
      cases hdone
    | some ds =>
      simp only [toolsetLoop, hc] at hdone ⊢
      have hdiffs : diffsAt env t = ds := by
        simp only [diffsAt, hc, Option.getD_some]
      by_cases hds : ds = []
      · rw [if_pos hds] at hdone ⊢
        rw [List.any_cons, hdiffs, hds]
        simpa using ih evs r hdone
      · rw [if_neg hds] at hdone ⊢
        rw [List.any_cons, hdiffs]
        have hne : ds.isEmpty = false := by
          cases ds with
          | nil => exact absurd rfl hds
          | cons d ds => rfl
        rw [hne]
        have := ih (evs ++ [Event.valuesChanged t ds]) (max r 2) hdone
        rw [this]
        by_cases hany : ts.any (fun t => !(diffsAt env t).isEmpty) = true
        · rw [if_pos hany]
          simp [Nat.max_assoc]
        · rw [if_neg hany]
          simp

/-- The recommendation after the first two checks is the maximum of
their triggered ordinals. -/
theorem rec_after_hcls_eq_max {Doc Val : Type} (env : MainEnv Doc Val) :
    rec_after_hcls env = max (indScripts env) (indTemplates env) := by
  by_cases h1 : changed_scripts env = [] <;> by_cases h2 : changed_hcls env = [] <;>
    simp [rec_after_hcls, rec_after_scripts, indScripts, indTemplates, h1, h2]

/-- C2: on a completed run the reported final recommendation is the
maximum ordinal triggered by the three checks (0 when none
triggers), and the recommendation value only ever escalates across
the run: it never decreases from one check to the next nor within
the toolset loop. -/
theorem C2_recommendation {Doc Val : Type} [DecidableEq Val] (env : MainEnv Doc Val) :
    ((runMain env).2 = false →
      (runMain env).1.getLast?
        = some (Event.results
            (max (max (indScripts env) (indTemplates env)) (indValues env))))
    ∧ rec_after_scripts env ≤ rec_after_hcls env
    ∧ (∀ (ts : List Str) (evs : List (Event Val)) (r : Nat),
        r ≤ (toolsetLoop env ts evs r).2.1) := by
  refine ⟨?_, ?_, toolsetLoop_mono env⟩
  · intro hdone
    cases hloop : toolsetLoop env (changed_toolsets env) (eventsPre env) (rec_after_hcls env) with
    | mk evs rb =>
      obtain ⟨r, ab⟩ := rb
      cases ab with
      | true =>
        have habort : (runMain env).2 = true := by
          simp only [runMain, hloop]
        rw [habort] at hdone
        cases hdone
      | false =>
        have hrun : runMain env = (evs ++ [Event.results r], false) := by
          simp only [runMain, hloop]
        rw [hrun]
        simp only [List.getLast?_concat]
        have hr : r = if (changed_toolsets env).any (fun t => !(diffsAt env t).isEmpty)
            then max (rec_after_hcls env) 2 else rec_after_hcls env := by
          have hrec := toolsetLoop_rec_of_complete env (changed_toolsets env)
            (eventsPre env) (rec_after_hcls env)
          rw [hloop] at hrec
          exact hrec rfl
        rw [hr, rec_after_hcls_eq_max, indValues]
        by_cases hany : (changed_toolsets env).any (fun t => !(diffsAt env t).isEmpty) = true
        · rw [if_pos hany, if_pos hany]
        · rw [if_neg hany, if_neg hany]
          simp
  · unfold rec_after_hcls
    by_cases h2 : changed_hcls env = []
    · rw [if_pos h2]
    · rw [if_neg h2]
      exact Nat.le_max_left _ 1

/-- Completing run used as the C2 witness: only a template changed;
the run finishes with recommendation 1. -/
def cenv2 : MainEnv Nat Nat :=
  ⟨[hcl22], [], [], fun _ _ => none, fun _ d => [d]⟩

/-- C2 (witness): the completed `cenv2` run reports exactly the
maximum triggered ordinal. -/
theorem C2_recommendation_witness :
    (runMain cenv2).1.getLast?
      = some (Event.results
          (max (max (indScripts cenv2) (indTemplates cenv2)) (indValues cenv2))) :=
  (C2_recommendation cenv2).1 (by decide)

/-- The changed script path used in the aborting environment
below. -/
def sPath : Str := "images/ubuntu/scripts/build/python.sh".data

/-- Aborting run used for C3: both toolset files changed, one
script changed; parsing toolset-2004 fails, toolset-2204 parses
fine and evaluates differently at the two commits. -/
def cenv3 : MainEnv Nat Nat :=
  ⟨[t2004, t2204, sPath], [sPath], ["q".data],
   fun isNew path => if path = t2004 then none else some (if isNew then 1 else 0),
   fun _ d => [d]⟩

/-- C3 (counterexample): with toolset-2004 unparsable, the run
aborts after the script finding: the parse failure does NOT fail
only that file's configuration check — the toolset-2204 check,
which parses fine and would report a difference, is suppressed too,
and so is the final results block. -/
theorem C3_counterexample :
    runMain cenv3 = ([Event.scriptsChanged [sPath]], true)
    ∧ t2204 ∈ cenv3.changed_files
    ∧ compare_toolset_values cenv3.parse cenv3.evalq t2204 cenv3.queries
        = some [("q".data, [0], [1])] :=
  ⟨by decide, by decide, by decide⟩

/-- C3 (amended): a configuration parse failure does not suppress
the script-check and template-check findings, which are emitted
before the toolset loop; but it aborts the remaining
configuration-file checks and the final results block, not only the
failing file's check. -/
theorem C3_partial_failure {Doc Val : Type} [DecidableEq Val] (env : MainEnv Doc Val) :
    (changed_scripts env ≠ [] →
      Event.scriptsChanged (changed_scripts env) ∈ (runMain env).1)
    ∧ (changed_hcls env ≠ [] →
      Event.templatesChanged (changed_hcls env) ∈ (runMain env).1) := by
  have hpre : eventsPre env <+: (runMain env).1 := by
    cases hloop : toolsetLoop env (changed_toolsets env) (eventsPre env) (rec_after_hcls env) with
    | mk evs rb =>
      obtain ⟨r, ab⟩ := rb
      have hext := toolsetLoop_events_extend env (changed_toolsets env)
        (eventsPre env) (rec_after_hcls env)
      rw [hloop] at hext
      cases ab with
      | true =>
        have hrun : (runMain env).1 = evs := by
          simp only [runMain, hloop]
        rw [hrun]
        exact hext
      | false =>
        have hrun : (runMain env).1 = evs ++ [Event.results r] := by
          simp only [runMain, hloop]
        rw [hrun]
        exact hext.trans (List.prefix_append evs _)
  constructor
  · intro h
    apply hpre.subset
    unfold eventsPre
    rw [if_neg h]
    exact List.mem_append_left _ (List.mem_cons_self _ _)
  · intro h
    apply hpre.subset
    unfold eventsPre
    rw [if_neg h]
    exact List.mem_append_right _ (List.mem_cons_self _ _)

/-- C3 (witness): in the aborting `cenv3` run the script finding is
still reported. -/
theorem C3_partial_failure_witness :
    Event.scriptsChanged (changed_scripts cenv3) ∈ (runMain cenv3).1 :=
  (C3_partial_failure cenv3).1 (by decide)
